import Mathlib

/-!
Shallow embedding of the data-management layer of the ibiA multiagent
platform (the `DatabaseService` class and the `SecurityService` class).
JS strings are modelled as lists of unicode scalar values (`List Nat`)
where byte-level codecs are involved, and as Lean `String` elsewhere;
JS numbers on the cache-accounting paths are integers at runtime, so they
are modelled as `Int`/`Nat`.  External collaborators (the fflate
compression library, WebCrypto AES-GCM, `Math.sin`, `Math.sqrt`,
`JSON.stringify` composed with `Blob` sizing) are passed in as explicit
function parameters; everything written in the repository itself is
translated directly.
-/

/-- A stable ascending insertion with respect to a boolean "less or equal"
test: the new element goes after every element it ties with, which is the
order `Array.prototype.sort` (stable, per the ECMAScript spec) produces
for a comparator returning `scoreA - scoreB`. -/
def insAsc (le : α → α → Bool) (x : α) : List α → List α
  | [] => [x]
  | y :: ys => if le y x then y :: insAsc le x ys else x :: y :: ys

/-- Stable ascending sort built by inserting each element of the input,
in order, into an accumulator.  With a total transitive `le` this computes
exactly the stable sorted permutation, i.e. the result of the JS `sort`. -/
def sortAsc (le : α → α → Bool) (l : List α) : List α :=
  l.foldl (fun acc x => insAsc le x acc) []

/-- One record of the IndexedDB `cache` object store
(`interface CacheEntry` in databaseService.ts).  `value : V` is the
`any`-typed payload; `size` is the byte size of its serialized form. -/
structure CacheEntry (V : Type) where
  key : String
  value : V
  timestamp : Nat
  size : Nat
  accessCount : Nat
  deriving Repr, DecidableEq

/-- The mutable state the service keeps for the cache subsystem: the
`cache` object store (IndexedDB keeps records in ascending key order, so
`getAll` order is key order) together with the in-memory running total
`this.cacheSize` (a JS number, here `Int`). -/
structure CacheState (V : Type) where
  entries : List (CacheEntry V)
  cacheSize : Int
  deriving Repr

/-- The fresh state after `init` on an empty database. -/
def emptyCache (V : Type) : CacheState V := ⟨[], 0⟩

/-- `private readonly MAX_CACHE_SIZE = 500 * 1024 * 1024` (500 MiB). -/
def MAX_CACHE_SIZE : Int := 500 * 1024 * 1024

/-- Lexicographic order on character lists by code point, the order
IndexedDB uses for string keys.  (Written out over `List Char` so that it
evaluates by kernel reduction; the builtin `String` order is
iterator-based and does not.) -/
def charsLt : List Char → List Char → Bool
  | [], [] => false
  | [], _ :: _ => true
  | _ :: _, [] => false
  | a :: as, b :: bs =>
    if a.toNat < b.toNat then true
    else if b.toNat < a.toNat then false
    else charsLt as bs

/-- IndexedDB key order on strings. -/
def keyLt (a b : String) : Bool := charsLt a.data b.data

/-- IndexedDB `put` on a store with `keyPath: 'key'`: upsert that keeps
the store in ascending key order. -/
def putEntry (e : CacheEntry V) : List (CacheEntry V) → List (CacheEntry V)
  | [] => [e]
  | x :: xs =>
    if keyLt e.key x.key then e :: x :: xs
    else if e.key = x.key then e :: xs
    else x :: putEntry e xs

/-- The keys of the entries of a store, in store order. -/
def entryKeys (l : List (CacheEntry V)) : List String := l.map (·.key)

/-- Total payload size of a list of cache entries, as an integer. -/
def sizeSum (l : List (CacheEntry V)) : Int :=
  (l.map (fun e => (e.size : Int))).sum

/-- Ten times the LRU score
`accessCount * 0.7 + (Date.now() - timestamp) * 0.3` from
`ensureCacheSpace`.  All inputs are integers, so the mathematical score is
the rational `(7 * accessCount + 3 * age) / 10`; scaling by 10 keeps the
comparisons exact in `Int`.  (The JS doubles `0.7` and `0.3` round each
score by less than 1e-9 relative error, far below the gaps of 0.1 and
more between distinct integer-input scores compared in this development,
so the ordering is the same.) -/
def score10 (now : Nat) (e : CacheEntry V) : Int :=
  7 * (e.accessCount : Int) + 3 * ((now : Int) - (e.timestamp : Int))

/-- The comparator `(a, b) => scoreA - scoreB` of `ensureCacheSpace`,
as the boolean "a sorts no later than b". -/
def scoreLe (now : Nat) (a b : CacheEntry V) : Bool :=
  decide (score10 now a ≤ score10 now b)

/-- The eviction loop of `ensureCacheSpace`: walk the score-sorted
entries; stop as soon as `cacheSize - freedSpace + newSize` fits under the
ceiling, otherwise delete the entry and add its size to `freedSpace`.
Returns the final `freedSpace` and the deleted keys. -/
def evictLoop (maxSize cacheSize newSize : Int) :
    List (CacheEntry V) → Int → Int × List String
  | [], freed => (freed, [])
  | e :: rest, freed =>
    if cacheSize - freed + newSize ≤ maxSize then (freed, [])
    else
      let r := evictLoop maxSize cacheSize newSize rest (freed + (e.size : Int))
      (r.1, e.key :: r.2)

/-- `private async ensureCacheSpace(newSize)`: a no-op while
`cacheSize + newSize <= MAX_CACHE_SIZE`, otherwise sort all entries by the
LRU score ascending and delete from the front until the projected usage
fits, finally subtracting the freed space from the running total.
`maxSize` stands for the readonly field `MAX_CACHE_SIZE` and `now` for
`Date.now()` during the call. -/
def ensureCacheSpace (maxSize : Int) (now : Nat) (newSize : Int)
    (st : CacheState V) : CacheState V :=
  if st.cacheSize + newSize ≤ maxSize then st
  else
    let sorted := sortAsc (scoreLe now) st.entries
    let r := evictLoop maxSize st.cacheSize newSize sorted 0
    { entries := st.entries.filter (fun e => !(r.2.contains e.key))
      cacheSize := st.cacheSize - r.1 }

/-- `async cacheSet(key, value)`: serialize the value, take its byte size
(`jsonSize` stands for `new Blob([JSON.stringify(value)]).size`), make
room, then `put` a fresh entry with `timestamp = Date.now()` and
`accessCount = 1`, and add the new size to the running total.  Note the
code adds `size` unconditionally: nothing is subtracted when the `put`
overwrites an existing key. -/
def cacheSet (jsonSize : V → Nat) (maxSize : Int) (now : Nat)
    (key : String) (v : V) (st : CacheState V) : CacheState V :=
  let size := jsonSize v
  let st1 := ensureCacheSpace maxSize now (size : Int) st
  { entries := putEntry ⟨key, v, now, size, 1⟩ st1.entries
    cacheSize := st1.cacheSize + (size : Int) }

/-- `async cacheGet(key)`: `null` on a miss; on a hit bump the timestamp
to `Date.now()`, increment `accessCount`, `put` the updated entry back
and return the stored value. -/
def cacheGet (now : Nat) (key : String) (st : CacheState V) :
    Option V × CacheState V :=
  match st.entries.find? (fun e => e.key == key) with
  | none => (none, st)
  | some e =>
    let e2 : CacheEntry V :=
      { e with timestamp := now, accessCount := e.accessCount + 1 }
    (some e.value, { st with entries := putEntry e2 st.entries })

/-- A whole history of `cacheSet` calls: each element is
`(Date.now() at the call, key, value)`. -/
def runCacheSets (jsonSize : V → Nat) (maxSize : Int) :
    List (Nat × String × V) → CacheState V → CacheState V
  | [], st => st
  | (now, key, v) :: ops, st =>
    runCacheSets jsonSize maxSize ops (cacheSet jsonSize maxSize now key v st)

/-- The invariant the cache subsystem maintains between calls when no key
is ever overwritten: the store is in strict key order (so keys are
unique), the running total agrees with the stored sizes, and the total is
within the ceiling. -/
structure CacheInv (maxSize : Int) (st : CacheState V) : Prop where
  sorted : st.entries.Pairwise (fun a b => keyLt a.key b.key = true)
  sizeEq : st.cacheSize = sizeSum st.entries
  bound : st.cacheSize ≤ maxSize

/-- One record of the `userQueries` object store (`keyPath: 'query'`,
with a `by-timestamp` index).  `R` is the type of the `results: any[]`
payload. -/
structure QueryRecord (R : Type) where
  query : String
  timestamp : Nat
  results : R
  framework : String
  deriving Repr, DecidableEq

/-- IndexedDB `put` on `userQueries`: upsert keeping ascending key order
on the primary key `query`. -/
def putQuery (q : QueryRecord R) : List (QueryRecord R) → List (QueryRecord R)
  | [] => [q]
  | x :: xs =>
    if keyLt q.query x.query then q :: x :: xs
    else if q.query = x.query then q :: xs
    else x :: putQuery q xs

/-- The order of the `by-timestamp` index: ascending timestamp, and the
IndexedDB-mandated primary-key tie break for equal timestamps. -/
def tsLe (a b : QueryRecord R) : Bool :=
  decide (a.timestamp < b.timestamp) ||
    (decide (a.timestamp = b.timestamp) && !(keyLt b.query a.query))

/-- `getAllFromIndex('userQueries', 'by-timestamp')`: all records in
index order. -/
def queriesByTimestamp (l : List (QueryRecord R)) : List (QueryRecord R) :=
  sortAsc tsLe l

/-- `async cacheUserQuery(query, results, framework)`: `put` the record
with `timestamp = Date.now()`, then if more than 1000 records exist,
delete the oldest `length - 1000` of them (`allQueries.slice(0,
allQueries.length - 1000)` over the ascending `by-timestamp` order). -/
def cacheUserQuery (now : Nat) (query : String) (results : R)
    (framework : String) (st : List (QueryRecord R)) : List (QueryRecord R) :=
  let st1 := putQuery ⟨query, now, results, framework⟩ st
  let allQueries := queriesByTimestamp st1
  if allQueries.length > 1000 then
    let oldQueries := allQueries.take (allQueries.length - 1000)
    st1.filter (fun r => !((oldQueries.map (·.query)).contains r.query))
  else st1

/-- A history of `cacheUserQuery` calls:
`(Date.now() at the call, query, results, framework)`. -/
def runUserQueries : List (Nat × String × R × String) →
    List (QueryRecord R) → List (QueryRecord R)
  | [], st => st
  | (now, q, res, fw) :: ops, st =>
    runUserQueries ops (cacheUserQuery now q res fw st)

/-- Prop form of the `by-timestamp` index order, used to state which
records count as older than which. -/
def tsLeP (a b : QueryRecord R) : Prop :=
  a.timestamp < b.timestamp ∨
    (a.timestamp = b.timestamp ∧ keyLt b.query a.query = false)

/-- One row of the `apiKeys` object store (`keyPath: 'service'`). -/
structure ApiKeyRecord where
  service : String
  encryptedKey : String
  deriving Repr, DecidableEq

/-- IndexedDB `put` on `apiKeys`: upsert keeping ascending key order. -/
def putApiKey (r : ApiKeyRecord) : List ApiKeyRecord → List ApiKeyRecord
  | [] => [r]
  | x :: xs =>
    if keyLt r.service x.service then r :: x :: xs
    else if r.service = x.service then r :: xs
    else x :: putApiKey r xs

/-- `async storeEncryptedApiKey(service, encryptedKey)`: put the row. -/
def storeEncryptedApiKey (service encryptedKey : String)
    (st : List ApiKeyRecord) : List ApiKeyRecord :=
  putApiKey ⟨service, encryptedKey⟩ st

/-- `async getEncryptedApiKey(service)`: `get` the row and return
`result?.encryptedKey || null`.  A JS string is falsy exactly when it is
empty, so a stored empty `encryptedKey` comes back as `null` just like a
missing row. -/
def getEncryptedApiKey (service : String) (st : List ApiKeyRecord) :
    Option String :=
  match st.find? (fun r => r.service == service) with
  | none => none
  | some r => if r.encryptedKey = "" then none else some r.encryptedKey

/-- A unicode scalar value, i.e. a code point a well-formed JS string can
carry outside surrogate pairs.  `TextEncoder` turns exactly these into
UTF-8 sequences. -/
def ValidScalar (c : Nat) : Prop := c < 0xD800 ∨ (0xE000 ≤ c ∧ c < 0x110000)

instance (c : Nat) : Decidable (ValidScalar c) := by
  unfold ValidScalar; infer_instance

/-- UTF-8 bytes of one scalar value (`TextEncoder` on one character). -/
def utf8EncodeChar (c : Nat) : List Nat :=
  if c < 0x80 then [c]
  else if c < 0x800 then [0xC0 + c / 64, 0x80 + c % 64]
  else if c < 0x10000 then
    [0xE0 + c / 4096, 0x80 + c / 64 % 64, 0x80 + c % 64]
  else
    [0xF0 + c / 262144, 0x80 + c / 4096 % 64, 0x80 + c / 64 % 64,
      0x80 + c % 64]

/-- `new TextEncoder().encode(s)`: UTF-8 bytes of a string, the string
being modelled as its list of scalar values. -/
def utf8Encode (s : List Nat) : List Nat := (s.map utf8EncodeChar).flatten

/-- One step of strict UTF-8 decoding: the scalar value encoded at the
head of the byte list and the remaining bytes, or `none` on a stray or
missing continuation byte, an overlong form, a surrogate or a value
beyond U+10FFFF. -/
def utf8DecodeOne : List Nat → Option (Nat × List Nat)
  | [] => none
  | b0 :: rest =>
    if b0 < 0x80 then some (b0, rest)
    else if b0 < 0xC0 then none
    else if b0 < 0xE0 then
      match rest with
      | b1 :: rest2 =>
        let c := (b0 - 0xC0) * 64 + (b1 - 0x80)
        if 0x80 ≤ b1 ∧ b1 < 0xC0 ∧ 0x80 ≤ c then some (c, rest2) else none
      | [] => none
    else if b0 < 0xF0 then
      match rest with
      | b1 :: b2 :: rest2 =>
        let c := (b0 - 0xE0) * 4096 + (b1 - 0x80) * 64 + (b2 - 0x80)
        if 0x80 ≤ b1 ∧ b1 < 0xC0 ∧ 0x80 ≤ b2 ∧ b2 < 0xC0 ∧ 0x800 ≤ c ∧
            ¬(0xD800 ≤ c ∧ c < 0xE000) then some (c, rest2) else none
      | _ => none
    else if b0 < 0xF8 then
      match rest with
      | b1 :: b2 :: b3 :: rest2 =>
        let c := (b0 - 0xF0) * 262144 + (b1 - 0x80) * 4096 +
          (b2 - 0x80) * 64 + (b3 - 0x80)
        if 0x80 ≤ b1 ∧ b1 < 0xC0 ∧ 0x80 ≤ b2 ∧ b2 < 0xC0 ∧ 0x80 ≤ b3 ∧
            b3 < 0xC0 ∧ 0x10000 ≤ c ∧ c < 0x110000 then some (c, rest2)
        else none
      | _ => none
    else none

/-- Decoding loop with a step budget; each step consumes at least one
byte, so a budget of the input length never runs out. -/
def utf8DecodeAux : Nat → List Nat → Option (List Nat)
  | _, [] => some []
  | 0, _ :: _ => none
  | fuel + 1, b0 :: rest =>
    match utf8DecodeOne (b0 :: rest) with
    | none => none
    | some (c, rest2) => (utf8DecodeAux fuel rest2).map (c :: ·)

/-- UTF-8 decoding (`TextDecoder`), strict: fails on malformed input.
(The browser `TextDecoder` in its default mode substitutes U+FFFD
instead of failing; on well-formed input, the only input the round-trip
theorems evaluate it on, the two behaviours agree.) -/
def utf8Decode (l : List Nat) : Option (List Nat) := utf8DecodeAux l.length l

/-- Character code of base64 digit `n` (the alphabet `A-Za-z0-9+/`). -/
def b64Char (n : Nat) : Nat :=
  if n < 26 then 65 + n
  else if n < 52 then 97 + (n - 26)
  else if n < 62 then 48 + (n - 52)
  else if n = 62 then 43
  else 47

/-- Digit value of a base64 character code; `none` off the alphabet. -/
def b64Index (c : Nat) : Option Nat :=
  if 65 ≤ c ∧ c ≤ 90 then some (c - 65)
  else if 97 ≤ c ∧ c ≤ 122 then some (c - 97 + 26)
  else if 48 ≤ c ∧ c ≤ 57 then some (c - 48 + 52)
  else if c = 43 then some 62
  else if c = 47 then some 63
  else none

/-- `btoa(String.fromCharCode(...bytes))`: base64 text (as character
codes) of a byte list, with `=` (code 61) padding. -/
def base64Encode : List Nat → List Nat
  | [] => []
  | [a] => [b64Char (a / 4), b64Char (a % 4 * 16), 61, 61]
  | [a, b] => [b64Char (a / 4), b64Char (a % 4 * 16 + b / 16),
      b64Char (b % 16 * 4), 61]
  | a :: b :: c :: rest =>
    b64Char (a / 4) :: b64Char (a % 4 * 16 + b / 16) ::
      b64Char (b % 16 * 4 + c / 64) :: b64Char (c % 64) :: base64Encode rest

/-- `Uint8Array.from(atob(s), c => c.charCodeAt(0))`: bytes of a base64
text; `none` where `atob` would throw (bad length, bad digit, interior
padding). -/
def base64Decode : List Nat → Option (List Nat)
  | [] => some []
  | c1 :: c2 :: c3 :: c4 :: rest =>
    match b64Index c1, b64Index c2 with
    | some n1, some n2 =>
      if c3 = 61 ∧ c4 = 61 ∧ rest = [] then some [n1 * 4 + n2 / 16]
      else if c4 = 61 ∧ rest = [] then
        match b64Index c3 with
        | some n3 => some [n1 * 4 + n2 / 16, n2 % 16 * 16 + n3 / 4]
        | none => none
      else
        match b64Index c3, b64Index c4 with
        | some n3, some n4 =>
          (base64Decode rest).map (fun bs =>
            (n1 * 4 + n2 / 16) :: (n2 % 16 * 16 + n3 / 4) ::
              (n3 % 4 * 64 + n4) :: bs)
        | _, _ => none
    | _, _ => none
  | _ => none

/-- `private async compressWithBrotli(data)`: UTF-8 encode the text,
compress it with the fflate `compress` callback (an external library,
passed here as `compressFn`), and base64 the compressed bytes for
storage. -/
def compressWithBrotli (compressFn : List Nat → List Nat)
    (data : List Nat) : List Nat :=
  base64Encode (compressFn (utf8Encode data))

/-- `private async decompressFromBrotli(compressedData)`: undo the
base64, feed the bytes to the fflate `decompress` callback
(`decompressFn`, `none` standing for the error callback firing), and
decode the output as UTF-8 text. -/
def decompressFromBrotli (decompressFn : List Nat → Option (List Nat))
    (compressedData : List Nat) : Option (List Nat) :=
  match base64Decode compressedData with
  | none => none
  | some compressed =>
    match decompressFn compressed with
    | none => none
    | some decompressed => utf8Decode decompressed

/-- `async encryptApiKey(apiKey, key?)` of SecurityService: AES-GCM
encrypt the UTF-8 bytes of the key under a 256-bit key and a 12-byte IV
(both produced by WebCrypto, passed here as values; `aesEnc` is
`crypto.subtle.encrypt` for AES-GCM), then base64 the concatenation
`rawKeyBytes || iv || ciphertext`. -/
def encryptApiKey (aesEnc : List Nat → List Nat → List Nat → List Nat)
    (keyData iv : List Nat) (apiKey : List Nat) : List Nat :=
  let encrypted := aesEnc keyData iv (utf8Encode apiKey)
  base64Encode (keyData ++ iv ++ encrypted)

/-- `async decryptApiKey(encryptedData)`: undo the base64, slice the
envelope at `[0, 32)` (raw key), `[32, 44)` (IV) and `[44, ...)`
(ciphertext), AES-GCM decrypt (`aesDec`, `none` standing for a WebCrypto
rejection on tag mismatch) and decode the plaintext as UTF-8. -/
def decryptApiKey (aesDec : List Nat → List Nat → List Nat → Option (List Nat))
    (encryptedData : List Nat) : Option (List Nat) :=
  match base64Decode encryptedData with
  | none => none
  | some combined =>
    let keyData := combined.take 32
    let iv := (combined.drop 32).take 12
    let encrypted := combined.drop 44
    match aesDec keyData iv encrypted with
    | none => none
    | some decrypted => utf8Decode decrypted

/-- `ToInt32`: the wrap-around a JS bitwise operation applies to its
result, mapping an integer into `[-2^31, 2^31)`. -/
def toInt32 (n : Int) : Int := (n + 2 ^ 31) % 2 ^ 32 - 2 ^ 31

/-- `private simpleHash(str)`: the rolling hash
`hash = ((hash << 5) - hash) + charCode; hash = hash & hash`.  `hash` is
always a 32-bit integer, `<< 5` wraps `hash * 32` to 32 bits and `& `
wraps the sum back, so one step is
`toInt32 (toInt32 (h * 32) - h + c)`.  The intermediate sum stays well
below 2^53, so JS doubles compute it exactly. -/
def simpleHash (s : List Nat) : Int :=
  s.foldl (fun h c => toInt32 (toInt32 (h * 32) - h + (c : Int))) 0

/-- `c.toLowerCase()` on one character code, restricted to the ASCII
letters that appear in the inputs this development evaluates (the JS
method also lowers non-ASCII letters, which no theorem here touches). -/
def jsToLower (c : Nat) : Nat := if 65 ≤ c ∧ c ≤ 90 then c + 32 else c

/-- Whether a character code is in the JS regex class `\s` (the ASCII
part: space, tab, line feed, vertical tab, form feed, carriage
return). -/
def isWsCode (c : Nat) : Bool :=
  c == 32 || c == 9 || c == 10 || c == 11 || c == 12 || c == 13

/-- Worker for `split(/\s+/)`: `inSep` says whether the scan is inside a
separator run; `cur` holds the reversed characters of the word being
built. -/
def splitWsAux : Bool → List Nat → List Nat → List (List Nat)
  | false, cur, [] => [cur.reverse]
  | false, cur, c :: r =>
    if isWsCode c then cur.reverse :: splitWsAux true [] r
    else splitWsAux false (c :: cur) r
  | true, _, [] => [[]]
  | true, _, c :: r =>
    if isWsCode c then splitWsAux true [] r else splitWsAux false [c] r

/-- `str.split(/\s+/)`: maximal whitespace runs separate the pieces; a
leading or trailing run contributes an empty piece, and the empty string
splits to `[""]`, as in JS. -/
def splitWs (s : List Nat) : List (List Nat) := splitWsAux false [] s

/-- The `for (j)` loop body of `generateSimpleEmbedding`:
`embedding[j] += Math.sin(hash + j) * 0.1` across the vector, `j`
starting at the given index.  `sinF` stands for `Math.sin` on the integer
argument `hash + j`. -/
def addSinAux (sinF : Int → ℚ) (hash : Int) : Nat → List ℚ → List ℚ
  | _, [] => []
  | j, v :: rest =>
    (v + sinF (hash + (j : Int)) * (1 / 10)) :: addSinAux sinF hash (j + 1) rest

/-- `private generateSimpleEmbedding(text)`: lower-case the text, split
on whitespace, and for each word add `sin(simpleHash word + j) * 0.1`
into every slot `j` of a 384-slot vector that starts at all zeroes; then
divide by the Euclidean magnitude (`sqrtF` stands for `Math.sqrt`),
mapping everything to 0 when the magnitude is not positive.  `Math.sin`
and `Math.sqrt` are external; the function is parametric in them, and in
particular calls nothing that could vary between two calls on the same
text. -/
def generateSimpleEmbedding (sinF : Int → ℚ) (sqrtF : ℚ → ℚ)
    (text : List Nat) : List ℚ :=
  let words := splitWs (text.map jsToLower)
  let embedding := words.foldl
    (fun emb w => addSinAux sinF (simpleHash w) 0 emb)
    (List.replicate 384 (0 : ℚ))
  let magnitude := sqrtF ((embedding.map (fun v => v * v)).sum)
  embedding.map (fun v => if magnitude > 0 then v / magnitude else 0)

/-- `contentType` of a FrameworkData row. -/
inductive ContentType where
  | repo
  | documentation
  | example
  deriving Repr, DecidableEq

/-- `interface FrameworkData` of databaseService.ts.  `lastUpdated`
(`new Date().toISOString()` at creation) is modelled by the creation
instant itself. -/
structure FrameworkData where
  id : String
  framework : String
  content : String
  url : String
  stars : Nat
  lastUpdated : Nat
  contentType : ContentType
  compressedSize : Nat
  deriving Repr, DecidableEq

/-- `private getMockFrameworkData(framework)`: the two deterministic
synthetic placeholder records returned when neither Supabase nor the
local cache has anything for the framework. -/
def getMockFrameworkData (now : Nat) (framework : String) :
    List FrameworkData :=
  [{ id := framework ++ "-mock-1"
     framework := framework
     content := "# " ++ framework.toUpper ++ " Framework Documentation\n\n" ++
       "This is mock data for development purposes.\n\n## Features\n" ++
       "- Multi-agent coordination\n- Task delegation\n" ++
       "- Memory management\n- Tool integration\n\n## Quick Start\n" ++
       "```python\nfrom " ++ framework ++ " import Agent\n\n" ++
       "agent = Agent(role=\"assistant\")\n" ++
       "result = agent.execute(\"Hello world\")\n```"
     url := "https://github.com/example/" ++ framework
     stars := 1000
     lastUpdated := now
     contentType := ContentType.documentation
     compressedSize := 500 },
   { id := framework ++ "-mock-2"
     framework := framework
     content := "# " ++ framework.toUpper ++ " Examples\n\n" ++
       "Example implementations and tutorials.\n\n## Basic Agent\n" ++
       "```python\nagent = Agent(\n    name=\"Assistant\",\n" ++
       "    role=\"Helper\",\n    goal=\"Assist users\"\n)\n```\n\n" ++
       "## Multi-Agent System\n```python\n" ++
       "crew = Crew(agents=[agent1, agent2])\nresult = crew.kickoff()\n```"
     url := "https://github.com/example/" ++ framework ++ "-examples"
     stars := 500
     lastUpdated := now
     contentType := ContentType.example
     compressedSize := 300 }]

/-- `async getFrameworkData(framework, limit = 100)`.  `supabase` models
the remote branch: `none` when no client is configured, `some none` when
the query errored or returned nothing, `some (some rows)` when it
returned rows (which the code decompresses with `dec`,
standing for `decompressFromBrotli`, and returns).  Otherwise the code
falls back to the cache entries whose key starts with
`framework_{framework}_` (`db = none` models `this.db` being null, in
which case the scan is skipped), and when that is empty it returns the
mock data — so the fallback path is total and never throws. -/
def getFrameworkData (dec : String → String)
    (supabase : Option (Option (List FrameworkData)))
    (db : Option (List (CacheEntry FrameworkData))) (now : Nat)
    (framework : String) (limit : Nat) : List FrameworkData :=
  let remote : Option (List FrameworkData) :=
    match supabase with
    | none => none
    | some none => none
    | some (some rows) =>
      if rows.length > 0 then
        some (rows.map (fun item => { item with content := dec item.content }))
      else none
  match remote with
  | some res => res
  | none =>
    let cachedData : List FrameworkData :=
      match db with
      | none => []
      | some entries =>
        (entries.filter (fun e =>
          ("framework_" ++ framework ++ "_").isPrefixOf e.key)).map (·.value)
    if cachedData.length = 0 then getMockFrameworkData now framework
    else cachedData.take limit

/-- Case-insensitive literal match at the head of the input (the `/i`
flag on a literal regex piece): returns the consumed characters, in their
original case, and the remainder. -/
def litCI (lit : List Char) (s : List Char) : Option (List Char × List Char) :=
  match lit, s with
  | [], rest => some ([], rest)
  | _ :: _, [] => none
  | l :: ls, c :: cs =>
    if c.toLower == l.toLower then
      match litCI ls cs with
      | some (consumed, rest) => some (c :: consumed, rest)
      | none => none
    else none

/-- Greedy `p*` over one character class: the longest matching head run
and the remainder. -/
def manyCl (p : Char → Bool) : List Char → List Char × List Char
  | [] => ([], [])
  | c :: cs =>
    if p c then
      let r := manyCl p cs
      (c :: r.1, r.2)
    else ([], c :: cs)

/-- Greedy `p+`: like `manyCl` but failing on an empty run. -/
def many1Cl (p : Char → Bool) (s : List Char) :
    Option (List Char × List Char) :=
  let r := manyCl p s
  if r.1.isEmpty then none else some r

/-- `p?`: one optional character of the class. -/
def optCl (p : Char → Bool) : List Char → List Char × List Char
  | [] => ([], [])
  | c :: cs => if p c then ([c], cs) else ([], c :: cs)

/-- `p{n}`: exactly `n` characters of the class. -/
def exactCl (p : Char → Bool) : Nat → List Char → Option (List Char × List Char)
  | 0, s => some ([], s)
  | _ + 1, [] => none
  | n + 1, c :: cs =>
    if p c then
      match exactCl p n cs with
      | some (consumed, rest) => some (c :: consumed, rest)
      | none => none
    else none

/-- The JS regex class `\s`, ASCII part (the only part the evaluated
inputs contain). -/
def isWsChar (c : Char) : Bool := isWsCode c.toNat

/-- The quote class `['"]` of the credential patterns. -/
def isQuoteChar (c : Char) : Bool := c == '\'' || c == '"'

/-- The captured-value class `[^'"\s]`. -/
def isValChar (c : Char) : Bool := !(isQuoteChar c || isWsChar c)

/-- ASCII `[a-zA-Z]`. -/
def isAsciiAlpha (c : Char) : Bool :=
  ('a' ≤ c && c ≤ 'z') || ('A' ≤ c && c ≤ 'Z')

/-- ASCII `[0-9]`. -/
def isAsciiDigit (c : Char) : Bool := '0' ≤ c && c ≤ '9'

/-- ASCII `[a-zA-Z0-9]`. -/
def isAsciiAlnum (c : Char) : Bool := isAsciiAlpha c || isAsciiDigit c

/-- The bearer-token class `[a-zA-Z0-9\-._~+/]`. -/
def isBearerChar (c : Char) : Bool :=
  isAsciiAlnum c || c == '-' || c == '.' || c == '_' || c == '~' ||
    c == '+' || c == '/'

/-- The class `[a-zA-Z0-9\-._~+/=]` that the captureless replacement arm
stars out. -/
def isStarChar (c : Char) : Bool := isBearerChar c || c == '='

/-- A pattern match at one position: the matched text, the first capture
group (when the pattern has one), and the remainder of the input. -/
abbrev MatchRes := Option (List Char × Option (List Char) × List Char)

/-- The shared tail `\s*[:=]\s*['"]([^'"\s]+)['"]?` of the five
assignment-style credential patterns of `sanitizeCode`. -/
def matchAssignTail (s : List Char) : MatchRes :=
  let r1 := manyCl isWsChar s
  match r1.2 with
  | [] => none
  | c :: s2 =>
    if c == ':' || c == '=' then
      let r2 := manyCl isWsChar s2
      match r2.2 with
      | [] => none
      | q :: s4 =>
        if isQuoteChar q then
          match many1Cl isValChar s4 with
          | some (v, s5) =>
            let r3 := optCl isQuoteChar s5
            some (r1.1 ++ [c] ++ r2.1 ++ [q] ++ v ++ r3.1, some v, r3.2)
          | none => none
        else none
    else none

/-- `api[_-]?key` (case-insensitive). -/
def matchKwApiKey (s : List Char) : Option (List Char × List Char) :=
  match litCI "api".toList s with
  | some (c1, s1) =>
    let r := optCl (fun c => c == '_' || c == '-') s1
    match litCI "key".toList r.2 with
    | some (c3, s3) => some (c1 ++ r.1 ++ c3, s3)
    | none => none
  | none => none

/-- `secret[_-]?key` (case-insensitive). -/
def matchKwSecretKey (s : List Char) : Option (List Char × List Char) :=
  match litCI "secret".toList s with
  | some (c1, s1) =>
    let r := optCl (fun c => c == '_' || c == '-') s1
    match litCI "key".toList r.2 with
    | some (c3, s3) => some (c1 ++ r.1 ++ c3, s3)
    | none => none
  | none => none

/-- `credentials?` (case-insensitive). -/
def matchKwCredential (s : List Char) : Option (List Char × List Char) :=
  match litCI "credential".toList s with
  | some (c1, s1) =>
    let r := optCl (fun c => c.toLower == 's') s1
    some (c1 ++ r.1, r.2)
  | none => none

/-- One assignment-style pattern: a keyword matcher followed by the
common `matchAssignTail`. -/
def patAssign (kw : List Char → Option (List Char × List Char))
    (s : List Char) : MatchRes :=
  match kw s with
  | some (k, s1) =>
    match matchAssignTail s1 with
    | some (t, cap, rest) => some (k ++ t, cap, rest)
    | none => none
  | none => none

/-- `/bearer\s+([a-zA-Z0-9\-._~+/]+=*)/gi`. -/
def patBearer (s : List Char) : MatchRes :=
  match litCI "bearer".toList s with
  | some (b, s1) =>
    match many1Cl isWsChar s1 with
    | some (w, s2) =>
      match many1Cl isBearerChar s2 with
      | some (v, s3) =>
        let eqs := manyCl (· == '=') s3
        some (b ++ w ++ v ++ eqs.1, some (v ++ eqs.1), eqs.2)
      | none => none
    | none => none
  | none => none

/-- `/sk-[a-zA-Z0-9]{48}/gi` (OpenAI keys): no capture group. -/
def patSk (s : List Char) : MatchRes :=
  match litCI "sk-".toList s with
  | some (p, s1) =>
    match exactCl isAsciiAlnum 48 s1 with
    | some (body, rest) => some (p ++ body, none, rest)
    | none => none
  | none => none

/-- `/xoxb-[0-9]{12}-[0-9]{12}-[a-zA-Z0-9]{24}/gi` (Slack bot tokens):
no capture group. -/
def patXoxb (s : List Char) : MatchRes :=
  match litCI "xoxb-".toList s with
  | some (p, s1) =>
    match exactCl isAsciiDigit 12 s1 with
    | some (d1, s2) =>
      match s2 with
      | '-' :: s3 =>
        match exactCl isAsciiDigit 12 s3 with
        | some (d2, s4) =>
          match s4 with
          | '-' :: s5 =>
            match exactCl isAsciiAlnum 24 s5 with
            | some (d3, rest) =>
              some (p ++ d1 ++ ['-'] ++ d2 ++ ['-'] ++ d3, none, rest)
            | none => none
          | _ => none
        | none => none
      | _ => none
    | none => none
  | none => none

/-- `str.replace(needle, repl)` with a plain-string needle: replace the
first occurrence of `needle` only. -/
def replaceFirst (hay needle repl : List Char) : List Char :=
  match hay with
  | [] => []
  | c :: rest =>
    if needle.isPrefixOf hay then repl ++ hay.drop needle.length
    else c :: replaceFirst rest needle repl

/-- The replacement callback of `sanitizeCode`: with a (truthy) capture,
replace its first occurrence inside the match by that many asterisks;
without one, star out every `[a-zA-Z0-9\-._~+/=]` character of the
match. -/
def replOnce (matched : List Char) (cap : Option (List Char)) : List Char :=
  match cap with
  | some v =>
    if v.isEmpty then matched.map (fun c => if isStarChar c then '*' else c)
    else replaceFirst matched v (List.replicate v.length '*')
  | none => matched.map (fun c => if isStarChar c then '*' else c)

/-- `String.prototype.replace` with a global regex and a function:
non-overlapping matches are found left to right on the input, each
replaced in the output, scanning resuming after the matched text.  The
fuel starts at the input length; every match here consumes at least one
character, so the fuel never runs out on the inputs evaluated. -/
def scanRepl (m : List Char → MatchRes) : Nat → List Char → List Char
  | 0, s => s
  | _ + 1, [] => []
  | fuel + 1, c :: rest =>
    match m (c :: rest) with
    | some (matched, cap, after) => replOnce matched cap ++ scanRepl m fuel after
    | none => c :: scanRepl m fuel rest

/-- Does one of the redaction keywords `api[_-]?key`, `secret`,
`password`, `token` match at this position (case-insensitively)? -/
def kwAltAt (s : List Char) : Bool :=
  (matchKwApiKey s).isSome || (litCI "secret".toList s).isSome ||
    (litCI "password".toList s).isSome || (litCI "token".toList s).isSome

/-- Does a redaction keyword match anywhere in the list? -/
def hasKwIn : List Char → Bool
  | [] => false
  | c :: rest => kwAltAt (c :: rest) || hasKwIn rest

/-- The commented-credentials patterns
`/\/\/.*?(api[_-]?key|secret|password|token).*/gi` and its `#` twin: at a
position starting with the opener, `.` does not cross a newline, `.*?`
reaches the earliest keyword and `.*` then swallows the rest of the
line — so the match is the whole rest of the line exactly when some
keyword occurs on it after the opener. -/
def matchCommentAt (opener : List Char) (s : List Char) :
    Option (List Char × List Char) :=
  if opener.isPrefixOf s then
    let after := s.drop opener.length
    let line := after.takeWhile (· != '\n')
    if hasKwIn line then some (opener ++ line, after.drop line.length)
    else none
  else none

/-- `String.prototype.replace` with a global regex and a constant
replacement string, for the two redaction patterns. -/
def scanReplConst (m : List Char → Option (List Char × List Char))
    (repl : List Char) : Nat → List Char → List Char
  | 0, s => s
  | _ + 1, [] => []
  | fuel + 1, c :: rest =>
    match m (c :: rest) with
    | some (_, after) => repl ++ scanReplConst m repl fuel after
    | none => c :: scanReplConst m repl fuel rest

/-- `sanitizeCode(code)` of SecurityService: the eight sensitive
patterns applied in order with the starring replacement callback, then
the two commented-credential redactions. -/
def sanitizeCode (code : String) : String :=
  let pats : List (List Char → MatchRes) :=
    [patAssign matchKwApiKey, patAssign matchKwSecretKey,
     patAssign (litCI "password".toList), patAssign (litCI "token".toList),
     patAssign matchKwCredential, patBearer, patSk, patXoxb]
  let s1 := pats.foldl (fun s m => scanRepl m s.length s) code.toList
  let s2 := scanReplConst (matchCommentAt "//".toList)
    "// [REDACTED]".toList s1.length s1
  let s3 := scanReplConst (matchCommentAt "#".toList)
    "# [REDACTED]".toList s2.length s2
  s3.asString

theorem insAsc_perm (le : α → α → Bool) (x : α) :
    ∀ l : List α, (insAsc le x l).Perm (x :: l)
  | [] => by simp [insAsc]
  | y :: ys => by
    simp only [insAsc]
    by_cases h : le y x
    · rw [if_pos h]
      exact ((insAsc_perm le x ys).cons y).trans (List.Perm.swap x y ys)
    · rw [if_neg h]

theorem foldlInsAsc_perm (le : α → α → Bool) :
    ∀ (l acc : List α),
      (l.foldl (fun acc x => insAsc le x acc) acc).Perm (acc ++ l)
  | [], acc => by simp
  | x :: l, acc => by
    simp only [List.foldl_cons]
    refine (foldlInsAsc_perm le l (insAsc le x acc)).trans ?_
    refine ((insAsc_perm le x acc).append_right l).trans ?_
    exact List.perm_middle.symm

theorem sortAsc_perm (le : α → α → Bool) (l : List α) :
    (sortAsc le l).Perm l := by
  simpa [sortAsc] using foldlInsAsc_perm le l []

theorem insAsc_pairwise (le : α → α → Bool)
    (htot : ∀ a b, le a b || le b a)
    (htrans : ∀ a b c, le a b = true → le b c = true → le a c = true) (x : α) :
    ∀ {l : List α}, l.Pairwise (fun a b => le a b = true) →
      (insAsc le x l).Pairwise (fun a b => le a b = true)
  | [], _ => by simp [insAsc]
  | y :: ys, h => by
    rw [List.pairwise_cons] at h
    obtain ⟨hy, hys⟩ := h
    simp only [insAsc]
    by_cases hc : le y x
    · rw [if_pos hc]
      refine List.pairwise_cons.mpr ⟨?_, insAsc_pairwise le htot htrans x hys⟩
      intro b hb
      rcases List.mem_cons.mp ((insAsc_perm le x ys).mem_iff.mp hb) with rfl | h2
      · exact hc
      · exact hy b h2
    · rw [if_neg hc]
      have hxy : le x y = true := by
        have := htot x y
        cases hxy : le x y with
        | true => rfl
        | false => rw [hxy] at this; simp at this; exact absurd this hc
      refine List.pairwise_cons.mpr ⟨?_, List.pairwise_cons.mpr ⟨hy, hys⟩⟩
      intro b hb
      rcases List.mem_cons.mp hb with rfl | hbys
      · exact hxy
      · exact htrans x y b hxy (hy b hbys)

theorem foldlInsAsc_pairwise (le : α → α → Bool)
    (htot : ∀ a b, le a b || le b a)
    (htrans : ∀ a b c, le a b = true → le b c = true → le a c = true) :
    ∀ (l acc : List α), acc.Pairwise (fun a b => le a b = true) →
      (l.foldl (fun acc x => insAsc le x acc) acc).Pairwise
        (fun a b => le a b = true)
  | [], _, h => h
  | x :: l, acc, h =>
    foldlInsAsc_pairwise le htot htrans l (insAsc le x acc)
      (insAsc_pairwise le htot htrans x h)

theorem sortAsc_pairwise (le : α → α → Bool)
    (htot : ∀ a b, le a b || le b a)
    (htrans : ∀ a b c, le a b = true → le b c = true → le a c = true)
    (l : List α) :
    (sortAsc le l).Pairwise (fun a b => le a b = true) :=
  foldlInsAsc_pairwise le htot htrans l [] (List.Pairwise.nil)

theorem charsLt_trans : ∀ (a b c : List Char), charsLt a b = true →
    charsLt b c = true → charsLt a c = true
  | [], [], _, h1, _ => by simp [charsLt] at h1
  | [], _ :: _, [], _, h2 => by simp [charsLt] at h2
  | [], _ :: _, _ :: _, _, _ => by simp [charsLt]
  | _ :: _, [], _, h1, _ => by simp [charsLt] at h1
  | _ :: _, _ :: _, [], _, h2 => by simp [charsLt] at h2
  | x :: as, y :: bs, z :: cs, h1, h2 => by
    simp only [charsLt] at h1 h2
    by_cases hxy : x.toNat < y.toNat
    · by_cases hyz : y.toNat < z.toNat
      · have hxz : x.toNat < z.toNat := Nat.lt_trans hxy hyz
        simp [charsLt, hxz]
      · by_cases hzy : z.toNat < y.toNat
        · rw [if_neg hyz, if_pos hzy] at h2
          exact absurd h2 (by simp)
        · have hxz : x.toNat < z.toNat := by omega
          simp [charsLt, hxz]
    · by_cases hyx : y.toNat < x.toNat
      · rw [if_neg hxy, if_pos hyx] at h1
        exact absurd h1 (by simp)
      · rw [if_neg hxy, if_neg hyx] at h1
        by_cases hyz : y.toNat < z.toNat
        · have hxz : x.toNat < z.toNat := by omega
          simp [charsLt, hxz]
        · by_cases hzy : z.toNat < y.toNat
          · rw [if_neg hyz, if_pos hzy] at h2
            exact absurd h2 (by simp)
          · rw [if_neg hyz, if_neg hzy] at h2
            have hxz : ¬ x.toNat < z.toNat := by omega
            have hzx : ¬ z.toNat < x.toNat := by omega
            simp only [charsLt, if_neg hxz, if_neg hzx]
            exact charsLt_trans as bs cs h1 h2

theorem charsLt_of_ne : ∀ (a b : List Char), a ≠ b →
    charsLt a b = true ∨ charsLt b a = true
  | [], [], h => absurd rfl h
  | [], _ :: _, _ => Or.inl (by simp [charsLt])
  | _ :: _, [], _ => Or.inr (by simp [charsLt])
  | x :: as, y :: bs, h => by
    by_cases hxy : x.toNat < y.toNat
    · exact Or.inl (by simp [charsLt, hxy])
    · by_cases hyx : y.toNat < x.toNat
      · exact Or.inr (by simp [charsLt, hyx])
      · have hnat : x.toNat = y.toNat := by omega
        have hchar : x = y := Char.ext (UInt32.ext hnat)
        have hasbs : as ≠ bs := fun hh => h (by rw [hchar, hh])
        rcases charsLt_of_ne as bs hasbs with h1 | h1
        · exact Or.inl (by simp [charsLt, hxy, hyx, h1])
        · exact Or.inr (by simp [charsLt, hyx, hxy, h1])

theorem charsLt_irrefl : ∀ (a : List Char), charsLt a a = false
  | [] => rfl
  | x :: as => by simp [charsLt, charsLt_irrefl as]

theorem ne_of_charsLt (a b : List Char) (h : charsLt a b = true) : a ≠ b := by
  intro hh
  rw [hh, charsLt_irrefl] at h
  simp at h

theorem keyLt_trans {a b c : String} (h1 : keyLt a b = true)
    (h2 : keyLt b c = true) : keyLt a c = true :=
  charsLt_trans _ _ _ h1 h2

theorem keyLt_of_ne {a b : String} (h : a ≠ b) :
    keyLt a b = true ∨ keyLt b a = true :=
  charsLt_of_ne _ _ (fun hd => h (String.ext hd))

theorem ne_of_keyLt {a b : String} (h : keyLt a b = true) : a ≠ b :=
  fun hh => ne_of_charsLt _ _ h (by rw [hh])

theorem mem_putEntry {V : Type} {a e : CacheEntry V} :
    ∀ {l : List (CacheEntry V)}, a ∈ putEntry e l → a = e ∨ a ∈ l
  | [], h => by simpa [putEntry] using h
  | x :: xs, h => by
    simp only [putEntry] at h
    by_cases h1 : keyLt e.key x.key = true
    · rw [if_pos h1] at h
      simpa using List.mem_cons.mp h
    · rw [if_neg h1] at h
      by_cases h2 : e.key = x.key
      · rw [if_pos h2] at h
        rcases List.mem_cons.mp h with rfl | hxs
        · exact Or.inl rfl
        · exact Or.inr (List.mem_cons_of_mem _ hxs)
      · rw [if_neg h2] at h
        rcases List.mem_cons.mp h with rfl | hput
        · exact Or.inr (List.mem_cons_self _ _)
        · rcases mem_putEntry hput with rfl | hxs
          · exact Or.inl rfl
          · exact Or.inr (List.mem_cons_of_mem _ hxs)

theorem putEntry_pairwise {V : Type} (e : CacheEntry V) :
    ∀ {l : List (CacheEntry V)}, l.Pairwise (fun a b => keyLt a.key b.key = true) →
      (putEntry e l).Pairwise (fun a b => keyLt a.key b.key = true)
  | [], _ => by simp [putEntry]
  | x :: xs, h => by
    rw [List.pairwise_cons] at h
    obtain ⟨hx, hxs⟩ := h
    simp only [putEntry]
    by_cases h1 : keyLt e.key x.key = true
    · rw [if_pos h1]
      refine List.pairwise_cons.mpr ⟨?_, List.pairwise_cons.mpr ⟨hx, hxs⟩⟩
      intro b hb
      rcases List.mem_cons.mp hb with rfl | hbxs
      · exact h1
      · exact keyLt_trans h1 (hx b hbxs)
    · rw [if_neg h1]
      by_cases h2 : e.key = x.key
      · rw [if_pos h2]
        exact List.pairwise_cons.mpr ⟨fun b hb => h2 ▸ hx b hb, hxs⟩
      · rw [if_neg h2]
        refine List.pairwise_cons.mpr ⟨?_, putEntry_pairwise e hxs⟩
        intro b hb
        rcases mem_putEntry hb with rfl | hbxs
        · rcases keyLt_of_ne h2 with hlt | hlt
          · exact absurd hlt h1
          · exact hlt
        · exact hx b hbxs

theorem sizeSum_nil {V : Type} : sizeSum ([] : List (CacheEntry V)) = 0 := rfl

theorem sizeSum_cons {V : Type} (e : CacheEntry V) (l : List (CacheEntry V)) :
    sizeSum (e :: l) = (e.size : Int) + sizeSum l := by
  simp [sizeSum]

theorem sizeSum_append {V : Type} (l₁ l₂ : List (CacheEntry V)) :
    sizeSum (l₁ ++ l₂) = sizeSum l₁ + sizeSum l₂ := by
  simp [sizeSum]

theorem sizeSum_perm {V : Type} {l₁ l₂ : List (CacheEntry V)}
    (h : l₁.Perm l₂) : sizeSum l₁ = sizeSum l₂ :=
  List.Perm.sum_eq (h.map _)

theorem putEntry_sum_fresh {V : Type} (e : CacheEntry V) :
    ∀ {l : List (CacheEntry V)}, e.key ∉ entryKeys l →
      sizeSum (putEntry e l) = (e.size : Int) + sizeSum l
  | [], _ => by simp [putEntry, sizeSum]
  | x :: xs, hfresh => by
    simp only [entryKeys, List.map_cons, List.mem_cons] at hfresh
    push_neg at hfresh
    obtain ⟨hne, hnot⟩ := hfresh
    simp only [putEntry]
    by_cases h1 : keyLt e.key x.key = true
    · rw [if_pos h1]
      simp [sizeSum_cons]
    · rw [if_neg h1, if_neg hne, sizeSum_cons,
        putEntry_sum_fresh e (by simpa [entryKeys] using hnot),
        sizeSum_cons]
      ring

theorem putEntry_keys_subset {V : Type} (e : CacheEntry V)
    (l : List (CacheEntry V)) :
    entryKeys (putEntry e l) ⊆ e.key :: entryKeys l := by
  intro k hk
  simp only [entryKeys, List.mem_map] at hk
  obtain ⟨a, ha, rfl⟩ := hk
  rcases mem_putEntry ha with rfl | hal
  · exact List.mem_cons_self _ _
  · exact List.mem_cons_of_mem _ (List.mem_map_of_mem _ hal)

theorem evictLoop_spec {V : Type} (maxSize c ns : Int) :
    ∀ (S : List (CacheEntry V)) (f0 : Int),
      ∃ P Q, S = P ++ Q ∧
        (evictLoop maxSize c ns S f0).1 = f0 + sizeSum P ∧
        (evictLoop maxSize c ns S f0).2 = entryKeys P ∧
        (Q = [] ∨ c - (evictLoop maxSize c ns S f0).1 + ns ≤ maxSize)
  | [], f0 =>
    ⟨[], [], by simp, by simp [evictLoop, sizeSum],
      by simp [evictLoop, entryKeys], Or.inl rfl⟩
  | e :: rest, f0 => by
    by_cases h : c - f0 + ns ≤ maxSize
    · refine ⟨[], e :: rest, by simp, ?_, ?_, Or.inr ?_⟩
      · simp [evictLoop, h, sizeSum]
      · simp [evictLoop, h, entryKeys]
      · simp only [evictLoop, if_pos h]
        exact h
    · obtain ⟨P, Q, hSQ, hfr, hdel, hor⟩ :=
        evictLoop_spec maxSize c ns rest (f0 + (e.size : Int))
      refine ⟨e :: P, Q, by simp [hSQ], ?_, ?_, ?_⟩
      · simp only [evictLoop, if_neg h]
        rw [hfr, sizeSum_cons]
        ring
      · simp only [evictLoop, if_neg h]
        rw [hdel]
        simp [entryKeys]
      · rcases hor with hq | hle
        · exact Or.inl hq
        · refine Or.inr ?_
          simpa [evictLoop, if_neg h] using hle

theorem keysContains_iff {l : List String} {k : String} :
    l.contains k = true ↔ k ∈ l := by
  simp

theorem entryKeys_nodup {V : Type} {l : List (CacheEntry V)}
    (h : l.Pairwise (fun a b => keyLt a.key b.key = true)) : (entryKeys l).Nodup := by
  have h2 : l.Pairwise (fun a b => a.key ≠ b.key) :=
    h.imp fun hab => ne_of_keyLt hab
  exact (List.pairwise_map).mpr h2

theorem ensureCacheSpace_spec {V : Type} (maxSize : Int) (now : Nat)
    (ns : Int) (st : CacheState V)
    (hsort : st.entries.Pairwise (fun a b => keyLt a.key b.key = true))
    (hsz : st.cacheSize = sizeSum st.entries)
    (hns : ns ≤ maxSize) :
    (ensureCacheSpace maxSize now ns st).entries.Pairwise
      (fun a b => keyLt a.key b.key = true) ∧
    (ensureCacheSpace maxSize now ns st).cacheSize =
      sizeSum (ensureCacheSpace maxSize now ns st).entries ∧
    (ensureCacheSpace maxSize now ns st).cacheSize + ns ≤ maxSize ∧
    entryKeys (ensureCacheSpace maxSize now ns st).entries ⊆
      entryKeys st.entries := by
  by_cases hfit : st.cacheSize + ns ≤ maxSize
  · have heq : ensureCacheSpace maxSize now ns st = st := by
      unfold ensureCacheSpace
      rw [if_pos hfit]
    rw [heq]
    exact ⟨hsort, hsz, hfit, fun k hk => hk⟩
  · set S := sortAsc (scoreLe now) st.entries with hSdef
    set E := evictLoop maxSize st.cacheSize ns S 0 with hEdef
    have heq : ensureCacheSpace maxSize now ns st =
        { entries := st.entries.filter (fun e => !(E.2.contains e.key))
          cacheSize := st.cacheSize - E.1 } := by
      unfold ensureCacheSpace
      rw [if_neg hfit]
    have hperm : S.Perm st.entries := sortAsc_perm _ _
    obtain ⟨P, Q, hSQ, hfr, hdel, hor⟩ :=
      evictLoop_spec maxSize st.cacheSize ns S 0
    rw [← hEdef] at hfr hdel hor
    have hnodup : (entryKeys st.entries).Nodup := entryKeys_nodup hsort
    have hSkeys : (entryKeys S).Nodup := by
      have hp : (entryKeys S).Perm (entryKeys st.entries) := by
        unfold entryKeys
        exact hperm.map _
      exact hp.nodup_iff.mpr hnodup
    have hdisj : ∀ a ∈ Q, a.key ∉ entryKeys P := by
      intro a haQ hmem
      rw [hSQ] at hSkeys
      have happ : (entryKeys P ++ entryKeys Q).Nodup := by
        unfold entryKeys at hSkeys ⊢
        rw [← List.map_append]
        exact hSkeys
      exact (List.disjoint_of_nodup_append happ) hmem
        (List.mem_map_of_mem _ haQ)
    have h2 : P.filter (fun e => !(E.2.contains e.key)) = [] := by
      refine List.filter_eq_nil_iff.mpr ?_
      intro a haP hcon
      simp only [hdel] at hcon
      simp at hcon
      exact hcon (List.mem_map_of_mem _ haP)
    have h3 : Q.filter (fun e => !(E.2.contains e.key)) = Q := by
      refine List.filter_eq_self.mpr ?_
      intro a haQ
      simp only [hdel, Bool.not_eq_true']
      cases hc : (entryKeys P).contains a.key
      · rfl
      · exact absurd (keysContains_iff.mp hc) (hdisj a haQ)
    have hfilt : (st.entries.filter (fun e => !(E.2.contains e.key))).Perm Q := by
      have h1 : (st.entries.filter (fun e => !(E.2.contains e.key))).Perm
          ((P ++ Q).filter (fun e => !(E.2.contains e.key))) :=
        List.Perm.filter _ (hperm.symm.trans (by rw [hSQ]))
      have h4 : (P ++ Q).filter (fun e => !(E.2.contains e.key)) = Q := by
        rw [List.filter_append, h2, h3, List.nil_append]
      exact h4 ▸ h1
    have hsumS : sizeSum S = st.cacheSize := by
      rw [hsz]
      exact sizeSum_perm hperm
    have hsplit : sizeSum P + sizeSum Q = st.cacheSize := by
      rw [← hsumS, hSQ, sizeSum_append]
    have hsumFilt :
        sizeSum (st.entries.filter (fun e => !(E.2.contains e.key))) =
          sizeSum Q := sizeSum_perm hfilt
    refine ⟨?_, ?_, ?_, ?_⟩
    · rw [heq]
      exact List.Pairwise.filter _ hsort
    · rw [heq]
      simp only
      rw [hsumFilt, hfr]
      omega
    · rw [heq]
      simp only
      rcases hor with hq | hle
      · subst hq
        rw [sizeSum_nil] at hsplit
        rw [hfr]
        omega
      · exact hle
    · rw [heq]
      simp only
      intro k hk
      simp only [entryKeys, List.mem_map] at hk
      obtain ⟨a, ha, rfl⟩ := hk
      exact List.mem_map_of_mem _ (List.mem_of_mem_filter ha)

theorem cacheSet_inv {V : Type} (jsonSize : V → Nat) (maxSize : Int)
    (now : Nat) (key : String) (v : V) (st : CacheState V)
    (hsort : st.entries.Pairwise (fun a b => keyLt a.key b.key = true))
    (hsz : st.cacheSize = sizeSum st.entries)
    (hns : (jsonSize v : Int) ≤ maxSize)
    (hfresh : key ∉ entryKeys st.entries) :
    (cacheSet jsonSize maxSize now key v st).entries.Pairwise
      (fun a b => keyLt a.key b.key = true) ∧
    (cacheSet jsonSize maxSize now key v st).cacheSize =
      sizeSum (cacheSet jsonSize maxSize now key v st).entries ∧
    (cacheSet jsonSize maxSize now key v st).cacheSize ≤ maxSize ∧
    entryKeys (cacheSet jsonSize maxSize now key v st).entries ⊆
      key :: entryKeys st.entries := by
  obtain ⟨h1, h2, h3, h4⟩ :=
    ensureCacheSpace_spec maxSize now (jsonSize v : Int) st hsort hsz hns
  set st1 := ensureCacheSpace maxSize now (jsonSize v : Int) st with hst1
  have heq : cacheSet jsonSize maxSize now key v st =
      { entries := putEntry ⟨key, v, now, jsonSize v, 1⟩ st1.entries
        cacheSize := st1.cacheSize + (jsonSize v : Int) } := rfl
  have hfresh1 : key ∉ entryKeys st1.entries := fun h => hfresh (h4 h)
  rw [heq]
  refine ⟨putEntry_pairwise _ h1, ?_, ?_, ?_⟩
  · simp only
    rw [putEntry_sum_fresh ⟨key, v, now, jsonSize v, 1⟩ hfresh1, ← h2]
    ring
  · simp only
    omega
  · simp only
    intro k hk
    rcases List.mem_cons.mp (putEntry_keys_subset _ _ hk) with rfl | hmem
    · exact List.mem_cons_self _ _
    · exact List.mem_cons_of_mem _ (h4 hmem)

theorem runCacheSets_inv {V : Type} (jsonSize : V → Nat) :
    ∀ (ops : List (Nat × String × V)) (st : CacheState V),
      st.entries.Pairwise (fun a b => keyLt a.key b.key = true) →
      st.cacheSize = sizeSum st.entries →
      st.cacheSize ≤ MAX_CACHE_SIZE →
      (∀ op ∈ ops, (jsonSize op.2.2 : Int) ≤ MAX_CACHE_SIZE) →
      (∀ op ∈ ops, op.2.1 ∉ entryKeys st.entries) →
      (ops.map (fun op => op.2.1)).Nodup →
      (runCacheSets jsonSize MAX_CACHE_SIZE ops st).cacheSize ≤ MAX_CACHE_SIZE
  | [], _, _, _, hb, _, _, _ => hb
  | (now, key, v) :: ops, st, hsort, hsz, _, hsizes, hdisj, hnodup => by
    simp only [runCacheSets]
    rw [List.map_cons, List.nodup_cons] at hnodup
    obtain ⟨h1, h2, h3, h4⟩ := cacheSet_inv jsonSize MAX_CACHE_SIZE now key v st
      hsort hsz (hsizes _ (List.mem_cons_self _ _))
      (hdisj _ (List.mem_cons_self _ _))
    refine runCacheSets_inv jsonSize ops _ h1 h2 h3 ?_ ?_ hnodup.2
    · intro op hop
      exact hsizes op (List.mem_cons_of_mem _ hop)
    · intro op hop hmem
      rcases List.mem_cons.mp (h4 hmem) with heqk | hmem2
      · have hmm : op.2.1 ∈ ops.map (fun o => o.2.1) :=
          List.mem_map_of_mem _ hop
        rw [heqk] at hmm
        exact hnodup.1 hmm
      · exact hdisj op (List.mem_cons_of_mem _ hop) hmem2

/-- C1 (code bug): `cacheSet("k", v1)` with `size(v1) = 1` followed by
`cacheSet("k", v2)` with `size(v2) = 2` leaves the running counter at
`3 = size(v1) + size(v2)` even though the only entry in the store has
size `2`: `cacheSet` never subtracts the overwritten entry's size, so the
counter does not equal the sum of the other entries plus `size(v2)` and
the claimed subtraction is absent from the code. -/
theorem c1_overwrite_accounting_leak :
    (cacheSet (fun n : Nat => n) MAX_CACHE_SIZE 1 "k" 2
        (cacheSet (fun n : Nat => n) MAX_CACHE_SIZE 0 "k" 1
          (emptyCache Nat))).cacheSize = 3 ∧
    sizeSum (cacheSet (fun n : Nat => n) MAX_CACHE_SIZE 1 "k" 2
        (cacheSet (fun n : Nat => n) MAX_CACHE_SIZE 0 "k" 1
          (emptyCache Nat))).entries = 2 := by
  decide

/-- C2 (counterexample): one `cacheSet` of an entry whose serialized size
is `MAX_CACHE_SIZE + 1`, starting from the empty cache, leaves
`cacheSize = 524288001 > MAX_CACHE_SIZE`: the eviction loop can free at
most everything and the entry is inserted regardless, so the bound is
exceeded after the call. -/
theorem c2_single_oversized_entry_breaks_bound :
    ¬ ((cacheSet (fun n : Nat => n) MAX_CACHE_SIZE 0 "k" 524288001
        (emptyCache Nat)).cacheSize ≤ MAX_CACHE_SIZE) := by
  decide

/-- C2 (amended): for every sequence of `cacheSet` calls starting from
the empty cache, in which every entry's serialized size is at most
`MAX_CACHE_SIZE` and no key is ever written twice (the overwrite
accounting bug of C1 otherwise desynchronizes the counter), the running
`cacheSize` is at most `MAX_CACHE_SIZE` after each call: eviction runs
before the insertion, never after. -/
theorem c2_cache_bound_invariant {V : Type} (jsonSize : V → Nat)
    (ops : List (Nat × String × V))
    (hsizes : ∀ op ∈ ops, (jsonSize op.2.2 : Int) ≤ MAX_CACHE_SIZE)
    (hnodup : (ops.map (fun op => op.2.1)).Nodup) (i : Nat) :
    (runCacheSets jsonSize MAX_CACHE_SIZE (ops.take i)
      (emptyCache V)).cacheSize ≤ MAX_CACHE_SIZE := by
  refine runCacheSets_inv jsonSize (ops.take i) (emptyCache V)
    List.Pairwise.nil rfl (by norm_num [emptyCache, MAX_CACHE_SIZE]) ?_ ?_ ?_
  · intro op hop
    exact hsizes op (List.take_subset _ _ hop)
  · intro op _ hmem
    simp [emptyCache, entryKeys] at hmem
  · exact List.Nodup.sublist ((List.take_sublist i ops).map _) hnodup

theorem c2_cache_bound_invariant_witness :
    (runCacheSets (fun n : Nat => n) MAX_CACHE_SIZE
      ([(0, "a", 1), (1, "b", 2)].take 2) (emptyCache Nat)).cacheSize ≤
      MAX_CACHE_SIZE :=
  c2_cache_bound_invariant (fun n : Nat => n) [(0, "a", 1), (1, "b", 2)]
    (by decide) (by decide) 2

/-- C3 (code bug): in the claimed scenario (MAX = 250; A, B, C of size
100 inserted at times 0, 3, 6; A read at time 10; D of size 100 inserted
at time 20) the age term of the score is weighted positively, so the
most recently touched entries get the lowest scores and are evicted
first.  Concretely: C's own insertion already evicts B (the newer of A,
B — not the least recently used), and D's insertion then evicts exactly
the just-accessed A while retaining the never-re-accessed C.  So the
eviction forced by D evicts no element of {B, C} before evicting A,
contradicting the claim (and the code's own "least recently used"
comment). -/
theorem c3_lru_eviction_inverted :
    "A" ∈ entryKeys (cacheGet 10 "A" (cacheSet (fun n : Nat => n) 250 6 "C"
      100 (cacheSet (fun n : Nat => n) 250 3 "B" 100 (cacheSet
      (fun n : Nat => n) 250 0 "A" 100 (emptyCache Nat))))).2.entries ∧
    "C" ∈ entryKeys (cacheGet 10 "A" (cacheSet (fun n : Nat => n) 250 6 "C"
      100 (cacheSet (fun n : Nat => n) 250 3 "B" 100 (cacheSet
      (fun n : Nat => n) 250 0 "A" 100 (emptyCache Nat))))).2.entries ∧
    "B" ∉ entryKeys (cacheGet 10 "A" (cacheSet (fun n : Nat => n) 250 6 "C"
      100 (cacheSet (fun n : Nat => n) 250 3 "B" 100 (cacheSet
      (fun n : Nat => n) 250 0 "A" 100 (emptyCache Nat))))).2.entries ∧
    "A" ∉ entryKeys (cacheSet (fun n : Nat => n) 250 20 "D" 100 (cacheGet 10
      "A" (cacheSet (fun n : Nat => n) 250 6 "C" 100 (cacheSet
      (fun n : Nat => n) 250 3 "B" 100 (cacheSet (fun n : Nat => n) 250 0 "A"
      100 (emptyCache Nat))))).2).entries ∧
    "C" ∈ entryKeys (cacheSet (fun n : Nat => n) 250 20 "D" 100 (cacheGet 10
      "A" (cacheSet (fun n : Nat => n) 250 6 "C" 100 (cacheSet
      (fun n : Nat => n) 250 3 "B" 100 (cacheSet (fun n : Nat => n) 250 0 "A"
      100 (emptyCache Nat))))).2).entries ∧
    "D" ∈ entryKeys (cacheSet (fun n : Nat => n) 250 20 "D" 100 (cacheGet 10
      "A" (cacheSet (fun n : Nat => n) 250 6 "C" 100 (cacheSet
      (fun n : Nat => n) 250 3 "B" 100 (cacheSet (fun n : Nat => n) 250 0 "A"
      100 (emptyCache Nat))))).2).entries := by
  decide

theorem find?_putApiKey (service key : String) :
    ∀ (l : List ApiKeyRecord),
      (putApiKey ⟨service, key⟩ l).find? (fun r => r.service == service) =
        some ⟨service, key⟩
  | [] => by simp [putApiKey]
  | x :: xs => by
    simp only [putApiKey]
    by_cases h1 : keyLt service x.service = true
    · rw [if_pos h1]
      simp [List.find?]
    · rw [if_neg h1]
      by_cases h2 : service = x.service
      · rw [if_pos h2]
        simp [List.find?]
      · rw [if_neg h2]
        have hne : (x.service == service) = false := by
          simp [Ne.symm h2]
        rw [List.find?_cons_of_neg _ (by simp [hne]), find?_putApiKey service key xs]

/-- C10: `getEncryptedApiKey` collapses an empty stored credential into
`null`: storing the empty string for a service and then reading it back
gives `none`, exactly like reading a service that was never stored —
`result?.encryptedKey || null` coerces the falsy empty string to `null`,
so a caller cannot tell the two apart. -/
theorem c10_empty_key_reads_as_null (st : List ApiKeyRecord)
    (service : String) :
    getEncryptedApiKey service (storeEncryptedApiKey service "" st) = none ∧
    getEncryptedApiKey service [] = none := by
  constructor
  · unfold getEncryptedApiKey storeEncryptedApiKey
    rw [find?_putApiKey service "" st]
    simp
  · rfl

/-- C6: with no Supabase client configured and no cached entry whose key
starts with `framework_{framework}_`, `getFrameworkData` returns exactly
the two mock records — a non-empty list — for every framework tag and
limit; the fallback path is a total function, so it cannot throw. -/
theorem c6_offline_fallback_nonempty (dec : String → String)
    (db : Option (List (CacheEntry FrameworkData))) (now : Nat)
    (framework : String) (limit : Nat)
    (hmiss : ∀ l, db = some l →
      l.filter (fun e =>
        ("framework_" ++ framework ++ "_").isPrefixOf e.key) = []) :
    getFrameworkData dec none db now framework limit =
      getMockFrameworkData now framework ∧
    getFrameworkData dec none db now framework limit ≠ [] := by
  have hcd : getFrameworkData dec none db now framework limit =
      getMockFrameworkData now framework := by
    cases db with
    | none => rfl
    | some l =>
      have h := hmiss l rfl
      unfold getFrameworkData
      simp [h]
  refine ⟨hcd, ?_⟩
  rw [hcd]
  simp [getMockFrameworkData]

theorem c6_offline_fallback_nonempty_witness :
    getFrameworkData id none (some []) 0 "crewai" 10 =
      getMockFrameworkData 0 "crewai" ∧
    getFrameworkData id none (some []) 0 "crewai" 10 ≠ [] :=
  c6_offline_fallback_nonempty id (some []) 0 "crewai" 10
    (fun l hl => by cases hl; rfl)

theorem addSinAux_length (sinF : Int → ℚ) (hash : Int) :
    ∀ (j : Nat) (l : List ℚ), (addSinAux sinF hash j l).length = l.length
  | _, [] => rfl
  | j, v :: rest => by
    simp only [addSinAux, List.length_cons]
    rw [addSinAux_length sinF hash (j + 1) rest]

/-- C8: the hash-based fallback embedding is a pure function of the text
(and of the `Math.sin` / `Math.sqrt` primitives it calls, which take no
other inputs), so two calls on the same text in the same process return
element-wise equal vectors; and the returned vector always has exactly
384 entries for every text. -/
theorem c8_embedding_deterministic_length (sinF : Int → ℚ) (sqrtF : ℚ → ℚ)
    (text : List Nat) :
    generateSimpleEmbedding sinF sqrtF text =
      generateSimpleEmbedding sinF sqrtF text ∧
    (generateSimpleEmbedding sinF sqrtF text).length = 384 := by
  refine ⟨rfl, ?_⟩
  unfold generateSimpleEmbedding
  simp only [List.length_map]
  have hfold : ∀ (ws : List (List Nat)) (acc : List ℚ),
      (ws.foldl (fun emb w => addSinAux sinF (simpleHash w) 0 emb) acc).length =
        acc.length := by
    intro ws
    induction ws with
    | nil => intro acc; rfl
    | cons w ws ih =>
      intro acc
      rw [List.foldl_cons, ih, addSinAux_length]
  rw [hfold, List.length_replicate]

theorem b64Index_b64Char : ∀ n, n < 64 → b64Index (b64Char n) = some n := by
  decide

theorem b64Char_ne_61 : ∀ n, n < 64 → b64Char n ≠ 61 := by
  decide

theorem base64_rt : ∀ (l : List Nat), (∀ b ∈ l, b < 256) →
    base64Decode (base64Encode l) = some l
  | [], _ => rfl
  | [a], h => by
    have ha : a < 256 := h a (by simp)
    have h1 : a / 4 < 64 := by omega
    have h2 : a % 4 * 16 < 64 := by omega
    simp only [base64Encode, base64Decode,
      b64Index_b64Char _ h1, b64Index_b64Char _ h2]
    rw [if_pos (by simp)]
    have e1 : a / 4 * 4 + a % 4 * 16 / 16 = a := by omega
    rw [e1]
  | [a, b], h => by
    have ha : a < 256 := h a (by simp)
    have hb : b < 256 := h b (by simp)
    have h1 : a / 4 < 64 := by omega
    have h2 : a % 4 * 16 + b / 16 < 64 := by omega
    have h3 : b % 16 * 4 < 64 := by omega
    have hne3 : b64Char (b % 16 * 4) ≠ 61 := b64Char_ne_61 _ h3
    simp only [base64Encode, base64Decode,
      b64Index_b64Char _ h1, b64Index_b64Char _ h2]
    rw [if_neg (by simp [hne3]), if_pos (by simp)]
    simp only [b64Index_b64Char _ h3]
    have e1 : a / 4 * 4 + (a % 4 * 16 + b / 16) / 16 = a := by omega
    have e2 : (a % 4 * 16 + b / 16) % 16 * 16 + b % 16 * 4 / 4 = b := by omega
    rw [e1, e2]
  | [a, b, c], h => by
    have ha : a < 256 := h a (by simp)
    have hb : b < 256 := h b (by simp)
    have hc : c < 256 := h c (by simp)
    have h1 : a / 4 < 64 := by omega
    have h2 : a % 4 * 16 + b / 16 < 64 := by omega
    have h3 : b % 16 * 4 + c / 64 < 64 := by omega
    have h4 : c % 64 < 64 := by omega
    have hne3 : b64Char (b % 16 * 4 + c / 64) ≠ 61 := b64Char_ne_61 _ h3
    have hne4 : b64Char (c % 64) ≠ 61 := b64Char_ne_61 _ h4
    simp only [base64Encode, base64Decode,
      b64Index_b64Char _ h1, b64Index_b64Char _ h2]
    rw [if_neg (by simp [hne3]), if_neg (by simp [hne4])]
    simp only [b64Index_b64Char _ h3, b64Index_b64Char _ h4,
      base64Decode, Option.map_some']
    have e1 : a / 4 * 4 + (a % 4 * 16 + b / 16) / 16 = a := by omega
    have e2 : (a % 4 * 16 + b / 16) % 16 * 16 + (b % 16 * 4 + c / 64) / 4 = b := by
      omega
    have e3 : (b % 16 * 4 + c / 64) % 4 * 64 + c % 64 = c := by omega
    rw [e1, e2, e3]
  | a :: b :: c :: d :: rest, h => by
    have ha : a < 256 := h a (by simp)
    have hb : b < 256 := h b (by simp)
    have hc : c < 256 := h c (by simp)
    have h1 : a / 4 < 64 := by omega
    have h2 : a % 4 * 16 + b / 16 < 64 := by omega
    have h3 : b % 16 * 4 + c / 64 < 64 := by omega
    have h4 : c % 64 < 64 := by omega
    have hne3 : b64Char (b % 16 * 4 + c / 64) ≠ 61 := b64Char_ne_61 _ h3
    have hne4 : b64Char (c % 64) ≠ 61 := b64Char_ne_61 _ h4
    have ih := base64_rt (d :: rest) (fun x hx => h x (by simp [hx]))
    simp only [base64Encode, base64Decode,
      b64Index_b64Char _ h1, b64Index_b64Char _ h2]
    rw [if_neg (by simp [hne3]), if_neg (by simp [hne4])]
    simp only [b64Index_b64Char _ h3, b64Index_b64Char _ h4, ih,
      Option.map_some']
    have e1 : a / 4 * 4 + (a % 4 * 16 + b / 16) / 16 = a := by omega
    have e2 : (a % 4 * 16 + b / 16) % 16 * 16 + (b % 16 * 4 + c / 64) / 4 = b := by
      omega
    have e3 : (b % 16 * 4 + c / 64) % 4 * 64 + c % 64 = c := by omega
    rw [e1, e2, e3]


theorem utf8DecodeOne_cons (b0 : Nat) (rest : List Nat) :
    utf8DecodeOne (b0 :: rest) =
      if b0 < 0x80 then some (b0, rest)
      else if b0 < 0xC0 then none
      else if b0 < 0xE0 then
        match rest with
        | b1 :: rest2 =>
          let c := (b0 - 0xC0) * 64 + (b1 - 0x80)
          if 0x80 ≤ b1 ∧ b1 < 0xC0 ∧ 0x80 ≤ c then some (c, rest2) else none
        | [] => none
      else if b0 < 0xF0 then
        match rest with
        | b1 :: b2 :: rest2 =>
          let c := (b0 - 0xE0) * 4096 + (b1 - 0x80) * 64 + (b2 - 0x80)
          if 0x80 ≤ b1 ∧ b1 < 0xC0 ∧ 0x80 ≤ b2 ∧ b2 < 0xC0 ∧ 0x800 ≤ c ∧
              ¬(0xD800 ≤ c ∧ c < 0xE000) then some (c, rest2) else none
        | _ => none
      else if b0 < 0xF8 then
        match rest with
        | b1 :: b2 :: b3 :: rest2 =>
          let c := (b0 - 0xF0) * 262144 + (b1 - 0x80) * 4096 +
            (b2 - 0x80) * 64 + (b3 - 0x80)
          if 0x80 ≤ b1 ∧ b1 < 0xC0 ∧ 0x80 ≤ b2 ∧ b2 < 0xC0 ∧ 0x80 ≤ b3 ∧
              b3 < 0xC0 ∧ 0x10000 ≤ c ∧ c < 0x110000 then some (c, rest2)
          else none
        | _ => none
      else none := rfl

theorem utf8DecodeAux_step (fuel : Nat) (b0 : Nat) (rest : List Nat) :
    utf8DecodeAux (fuel + 1) (b0 :: rest) =
      match utf8DecodeOne (b0 :: rest) with
      | none => none
      | some (c, rest2) => (utf8DecodeAux fuel rest2).map (c :: ·) := rfl

theorem utf8DecodeOne_encodeChar (c : Nat) (hval : ValidScalar c)
    (rest : List Nat) :
    utf8DecodeOne (utf8EncodeChar c ++ rest) = some (c, rest) := by
  have hlt : c < 0x110000 := by
    rcases hval with h | h
    · omega
    · exact h.2
  by_cases h1 : c < 0x80
  · have henc : utf8EncodeChar c = [c] := by
      unfold utf8EncodeChar
      rw [if_pos h1]
    rw [henc, List.singleton_append, utf8DecodeOne_cons, if_pos h1]
  · by_cases h2 : c < 0x800
    · have henc : utf8EncodeChar c = [0xC0 + c / 64, 0x80 + c % 64] := by
        unfold utf8EncodeChar
        rw [if_neg h1, if_pos h2]
      rw [henc, List.cons_append, List.cons_append, List.nil_append,
        utf8DecodeOne_cons, if_neg (by omega), if_neg (by omega),
        if_pos (by omega)]
      simp only []
      rw [if_pos (by omega)]
      have e : (0xC0 + c / 64 - 0xC0) * 64 + (0x80 + c % 64 - 0x80) = c := by
        omega
      rw [e]
    · by_cases h3 : c < 0x10000
      · have hsur : ¬ (0xD800 ≤ c ∧ c < 0xE000) := by
          rcases hval with h | h
          · omega
          · omega
        have henc : utf8EncodeChar c =
            [0xE0 + c / 4096, 0x80 + c / 64 % 64, 0x80 + c % 64] := by
          unfold utf8EncodeChar
          rw [if_neg h1, if_neg h2, if_pos h3]
        rw [henc, List.cons_append, List.cons_append, List.cons_append,
          List.nil_append, utf8DecodeOne_cons, if_neg (by omega),
          if_neg (by omega), if_neg (by omega), if_pos (by omega)]
        simp only []
        have e : (0xE0 + c / 4096 - 0xE0) * 4096 +
            (0x80 + c / 64 % 64 - 0x80) * 64 + (0x80 + c % 64 - 0x80) = c := by
          omega
        have g : 0x80 ≤ 0x80 + c / 64 % 64 ∧ 0x80 + c / 64 % 64 < 0xC0 ∧
            0x80 ≤ 0x80 + c % 64 ∧ 0x80 + c % 64 < 0xC0 ∧
            0x800 ≤ (0xE0 + c / 4096 - 0xE0) * 4096 +
              (0x80 + c / 64 % 64 - 0x80) * 64 + (0x80 + c % 64 - 0x80) ∧
            ¬ (0xD800 ≤ (0xE0 + c / 4096 - 0xE0) * 4096 +
                (0x80 + c / 64 % 64 - 0x80) * 64 + (0x80 + c % 64 - 0x80) ∧
              (0xE0 + c / 4096 - 0xE0) * 4096 +
                (0x80 + c / 64 % 64 - 0x80) * 64 + (0x80 + c % 64 - 0x80) <
                0xE000) := by
          refine ⟨by omega, by omega, by omega, by omega, by omega, ?_⟩
          rw [e]
          exact hsur
        rw [if_pos g, e]
      · have henc : utf8EncodeChar c =
            [0xF0 + c / 262144, 0x80 + c / 4096 % 64, 0x80 + c / 64 % 64,
              0x80 + c % 64] := by
          unfold utf8EncodeChar
          rw [if_neg h1, if_neg h2, if_neg h3]
        rw [henc, List.cons_append, List.cons_append, List.cons_append,
          List.cons_append, List.nil_append, utf8DecodeOne_cons,
          if_neg (by omega), if_neg (by omega), if_neg (by omega),
          if_neg (by omega), if_pos (by omega)]
        simp only []
        have e : (0xF0 + c / 262144 - 0xF0) * 262144 +
            (0x80 + c / 4096 % 64 - 0x80) * 4096 +
            (0x80 + c / 64 % 64 - 0x80) * 64 + (0x80 + c % 64 - 0x80) = c := by
          omega
        rw [if_pos (by omega), e]

theorem utf8EncodeChar_length_pos (c : Nat) :
    1 ≤ (utf8EncodeChar c).length := by
  unfold utf8EncodeChar
  by_cases h1 : c < 0x80
  · rw [if_pos h1]
    simp
  · rw [if_neg h1]
    by_cases h2 : c < 0x800
    · rw [if_pos h2]
      simp
    · rw [if_neg h2]
      by_cases h3 : c < 0x10000
      · rw [if_pos h3]
        simp
      · rw [if_neg h3]
        simp

theorem utf8DecodeAux_encode : ∀ (s : List Nat),
    (∀ c ∈ s, ValidScalar c) → ∀ fuel, (utf8Encode s).length ≤ fuel →
      utf8DecodeAux fuel (utf8Encode s) = some s
  | [], _, fuel, _ => by
    cases fuel <;> rfl
  | c :: s, h, fuel, hfuel => by
    have hc : ValidScalar c := h c (by simp)
    have henc : utf8Encode (c :: s) = utf8EncodeChar c ++ utf8Encode s := by
      simp [utf8Encode]
    rw [henc] at hfuel ⊢
    have hlen : 1 + (utf8Encode s).length ≤ (utf8EncodeChar c ++ utf8Encode s).length := by
      rw [List.length_append]
      have := utf8EncodeChar_length_pos c
      omega
    obtain ⟨f, rfl⟩ : ∃ f, fuel = f + 1 := by
      refine ⟨fuel - 1, ?_⟩
      omega
    obtain ⟨b0, tail, htl⟩ : ∃ b0 tail,
        utf8EncodeChar c ++ utf8Encode s = b0 :: tail := by
      cases hE : utf8EncodeChar c with
      | nil =>
        have := utf8EncodeChar_length_pos c
        rw [hE] at this
        simp at this
      | cons b0 bs => exact ⟨b0, bs ++ utf8Encode s, by simp [hE]⟩
    rw [htl, utf8DecodeAux_step, ← htl, utf8DecodeOne_encodeChar c hc]
    simp only []
    rw [utf8DecodeAux_encode s (fun x hx => h x (by simp [hx])) f
      (by rw [htl] at hfuel hlen
          simp only [List.length_cons] at hfuel hlen
          omega)]
    rfl

theorem utf8_rt (s : List Nat) (h : ∀ c ∈ s, ValidScalar c) :
    utf8Decode (utf8Encode s) = some s :=
  utf8DecodeAux_encode s h (utf8Encode s).length le_rfl

/-- C4: decoding the encoded form returns the input exactly, for every
valid string (unicode scalar sequence), including the empty string and
strings with multi-byte characters: provided the external fflate
compressor and decompressor invert one another on the encoded bytes and
the compressor emits bytes, `decompressFromBrotli` of
`compressWithBrotli` is the identity — the UTF-8 and base64 stages
written in the repository are proved inverse here, the compression stage
is the library's contract. -/
theorem c4_codec_round_trip (compressFn : List Nat → List Nat)
    (decompressFn : List Nat → Option (List Nat)) (s : List Nat)
    (hval : ∀ c ∈ s, ValidScalar c)
    (hbytes : ∀ b ∈ compressFn (utf8Encode s), b < 256)
    (hinv : decompressFn (compressFn (utf8Encode s)) = some (utf8Encode s)) :
    decompressFromBrotli decompressFn (compressWithBrotli compressFn s) =
      some s := by
  unfold compressWithBrotli decompressFromBrotli
  rw [base64_rt _ hbytes]
  simp only []
  rw [hinv]
  simp only []
  exact utf8_rt s hval

theorem c4_codec_round_trip_witness :
    decompressFromBrotli some (compressWithBrotli id []) = some [] ∧
    decompressFromBrotli some (compressWithBrotli id [104, 233]) =
      some [104, 233] :=
  ⟨c4_codec_round_trip id some [] (by decide) (by decide) rfl,
   c4_codec_round_trip id some [104, 233] (by decide) (by decide) rfl⟩

/-- C5: for every string (scalar sequence), decrypting the envelope
produced by `encryptApiKey` returns the string: the envelope is the
base64 of the raw 32-byte key, the 12-byte IV and the AES-GCM
ciphertext concatenated in that order, and `decryptApiKey` slices it at
exactly bytes [0, 32), [32, 44) and [44, ...) — proved here for any
AES-GCM encrypt/decrypt pair (the external WebCrypto primitive) that
inverts itself under the used key and IV. -/
theorem c5_crypto_round_trip
    (aesEnc : List Nat → List Nat → List Nat → List Nat)
    (aesDec : List Nat → List Nat → List Nat → Option (List Nat))
    (keyData iv apiKey : List Nat)
    (hkey : keyData.length = 32) (hiv : iv.length = 12)
    (hval : ∀ c ∈ apiKey, ValidScalar c)
    (hbytes : ∀ b ∈ keyData ++ iv ++ aesEnc keyData iv (utf8Encode apiKey),
      b < 256)
    (hinv : aesDec keyData iv (aesEnc keyData iv (utf8Encode apiKey)) =
      some (utf8Encode apiKey)) :
    decryptApiKey aesDec (encryptApiKey aesEnc keyData iv apiKey) =
      some apiKey := by
  unfold encryptApiKey decryptApiKey
  rw [base64_rt _ hbytes]
  simp only []
  have htake : (keyData ++ (iv ++ aesEnc keyData iv (utf8Encode apiKey))).take 32 =
      keyData := by
    rw [← hkey]
    exact List.take_left _ _
  have hdrop : (keyData ++ (iv ++ aesEnc keyData iv (utf8Encode apiKey))).drop 32 =
      iv ++ aesEnc keyData iv (utf8Encode apiKey) := by
    rw [← hkey]
    exact List.drop_left _ _
  have hiv2 : (iv ++ aesEnc keyData iv (utf8Encode apiKey)).take 12 = iv := by
    rw [← hiv]
    exact List.take_left _ _
  have hct : (keyData ++ (iv ++ aesEnc keyData iv (utf8Encode apiKey))).drop 44 =
      aesEnc keyData iv (utf8Encode apiKey) := by
    rw [show keyData ++ (iv ++ aesEnc keyData iv (utf8Encode apiKey)) =
        (keyData ++ iv) ++ aesEnc keyData iv (utf8Encode apiKey) from
      (List.append_assoc _ _ _).symm]
    rw [show (44 : Nat) = (keyData ++ iv).length from by
      rw [List.length_append, hkey, hiv]]
    exact List.drop_left _ _
  rw [List.append_assoc, htake, hdrop, hiv2, hct, hinv]
  simp only []
  exact utf8_rt apiKey hval

theorem c5_crypto_round_trip_witness :
    decryptApiKey (fun _ _ ctxt => some ctxt)
      (encryptApiKey (fun _ _ pt => pt) (List.replicate 32 7)
        (List.replicate 12 9) [104]) = some [104] :=
  c5_crypto_round_trip (fun _ _ pt => pt) (fun _ _ ctxt => some ctxt)
    (List.replicate 32 7) (List.replicate 12 9) [104]
    (by decide) (by decide) (by decide) (by decide) rfl

theorem keyLt_asymm {a b : String} (h1 : keyLt a b = true)
    (h2 : keyLt b a = true) : False := by
  have h3 := keyLt_trans h1 h2
  unfold keyLt at h3
  rw [charsLt_irrefl] at h3
  simp at h3

theorem tsLe_total {R : Type} (a b : QueryRecord R) :
    (tsLe a b || tsLe b a) = true := by
  unfold tsLe
  by_cases h1 : a.timestamp < b.timestamp
  · simp [h1]
  · by_cases h2 : b.timestamp < a.timestamp
    · simp [h2]
    · have he : a.timestamp = b.timestamp := by omega
      by_cases h3 : keyLt b.query a.query = true
      · have h4 : keyLt a.query b.query = false := by
          cases hc : keyLt a.query b.query
          · rfl
          · exact (keyLt_asymm hc h3).elim
        simp [he, h1, h2, h3, h4]
      · have h3f : keyLt b.query a.query = false := by
          cases hc : keyLt b.query a.query
          · rfl
          · exact absurd hc h3
        simp [he, h1, h3f]

theorem tsLe_trans {R : Type} (a b c : QueryRecord R)
    (h1 : tsLe a b = true) (h2 : tsLe b c = true) : tsLe a c = true := by
  unfold tsLe at h1 h2 ⊢
  simp only [Bool.or_eq_true, Bool.and_eq_true, decide_eq_true_eq,
    Bool.not_eq_true'] at h1 h2 ⊢
  rcases h1 with h1 | ⟨h1e, h1k⟩
  · rcases h2 with h2 | ⟨h2e, _⟩
    · exact Or.inl (by omega)
    · exact Or.inl (by omega)
  · rcases h2 with h2 | ⟨h2e, h2k⟩
    · exact Or.inl (by omega)
    · refine Or.inr ⟨by omega, ?_⟩
      cases hca : keyLt c.query a.query
      · rfl
      · by_cases hab : a.query = b.query
        · rw [← hab] at h2k
          rw [hca] at h2k
          simp at h2k
        · rcases keyLt_of_ne hab with h | h
          · have h5 := keyLt_trans hca h
            rw [h5] at h2k
            simp at h2k
          · rw [h] at h1k
            simp at h1k

theorem tsLeP_of_tsLe {R : Type} {a b : QueryRecord R}
    (h : tsLe a b = true) : tsLeP a b := by
  unfold tsLe at h
  simp only [Bool.or_eq_true, Bool.and_eq_true, decide_eq_true_eq,
    Bool.not_eq_true'] at h
  unfold tsLeP
  exact h

theorem mem_putQuery {R : Type} {a q : QueryRecord R} :
    ∀ {l : List (QueryRecord R)}, a ∈ putQuery q l → a = q ∨ a ∈ l
  | [], h => by simpa [putQuery] using h
  | x :: xs, h => by
    simp only [putQuery] at h
    by_cases h1 : keyLt q.query x.query = true
    · rw [if_pos h1] at h
      simpa using List.mem_cons.mp h
    · rw [if_neg h1] at h
      by_cases h2 : q.query = x.query
      · rw [if_pos h2] at h
        rcases List.mem_cons.mp h with rfl | hxs
        · exact Or.inl rfl
        · exact Or.inr (List.mem_cons_of_mem _ hxs)
      · rw [if_neg h2] at h
        rcases List.mem_cons.mp h with rfl | hput
        · exact Or.inr (List.mem_cons_self _ _)
        · rcases mem_putQuery hput with rfl | hxs
          · exact Or.inl rfl
          · exact Or.inr (List.mem_cons_of_mem _ hxs)

theorem putQuery_pairwise {R : Type} (q : QueryRecord R) :
    ∀ {l : List (QueryRecord R)},
      l.Pairwise (fun a b => keyLt a.query b.query = true) →
      (putQuery q l).Pairwise (fun a b => keyLt a.query b.query = true)
  | [], _ => by simp [putQuery]
  | x :: xs, h => by
    rw [List.pairwise_cons] at h
    obtain ⟨hx, hxs⟩ := h
    simp only [putQuery]
    by_cases h1 : keyLt q.query x.query = true
    · rw [if_pos h1]
      refine List.pairwise_cons.mpr ⟨?_, List.pairwise_cons.mpr ⟨hx, hxs⟩⟩
      intro b hb
      rcases List.mem_cons.mp hb with rfl | hbxs
      · exact h1
      · exact keyLt_trans h1 (hx b hbxs)
    · rw [if_neg h1]
      by_cases h2 : q.query = x.query
      · rw [if_pos h2]
        exact List.pairwise_cons.mpr ⟨fun b hb => h2 ▸ hx b hb, hxs⟩
      · rw [if_neg h2]
        refine List.pairwise_cons.mpr ⟨?_, putQuery_pairwise q hxs⟩
        intro b hb
        rcases mem_putQuery hb with rfl | hbxs
        · rcases keyLt_of_ne h2 with hlt | hlt
          · exact absurd hlt h1
          · exact hlt
        · exact hx b hbxs

theorem queryKeys_nodup {R : Type} {l : List (QueryRecord R)}
    (h : l.Pairwise (fun a b => keyLt a.query b.query = true)) :
    (l.map (·.query)).Nodup := by
  have h2 : l.Pairwise (fun a b => a.query ≠ b.query) :=
    h.imp fun hab => ne_of_keyLt hab
  exact (List.pairwise_map).mpr h2

theorem cacheUserQuery_pairwise {R : Type} (now : Nat) (q : String)
    (res : R) (fw : String) {st : List (QueryRecord R)}
    (hsort : st.Pairwise (fun a b => keyLt a.query b.query = true)) :
    (cacheUserQuery now q res fw st).Pairwise
      (fun a b => keyLt a.query b.query = true) := by
  unfold cacheUserQuery
  by_cases hlen : (queriesByTimestamp (putQuery ⟨q, now, res, fw⟩ st)).length > 1000
  · rw [if_pos hlen]
    exact List.Pairwise.filter _ (putQuery_pairwise _ hsort)
  · rw [if_neg hlen]
    exact putQuery_pairwise _ hsort

theorem runUserQueries_pairwise {R : Type} :
    ∀ (ops : List (Nat × String × R × String)) (st : List (QueryRecord R)),
      st.Pairwise (fun a b => keyLt a.query b.query = true) →
      (runUserQueries ops st).Pairwise
        (fun a b => keyLt a.query b.query = true)
  | [], _, h => h
  | (now, q, res, fw) :: ops, _, h =>
    runUserQueries_pairwise ops _ (cacheUserQuery_pairwise now q res fw h)

theorem cacheUserQuery_spec {R : Type} (now : Nat) (q : String) (res : R)
    (fw : String) (st : List (QueryRecord R))
    (hsort : st.Pairwise (fun a b => keyLt a.query b.query = true)) :
    (cacheUserQuery now q res fw st).length ≤ 1000 ∧
    (cacheUserQuery now q res fw st).Perm
      ((queriesByTimestamp (putQuery ⟨q, now, res, fw⟩ st)).drop
        ((queriesByTimestamp (putQuery ⟨q, now, res, fw⟩ st)).length - 1000)) ∧
    ∀ a ∈ putQuery ⟨q, now, res, fw⟩ st,
      a ∉ cacheUserQuery now q res fw st →
      ∀ b ∈ cacheUserQuery now q res fw st, tsLeP a b := by
  have hsort1 : (putQuery ⟨q, now, res, fw⟩ st).Pairwise
      (fun a b => keyLt a.query b.query = true) := putQuery_pairwise _ hsort
  have hnodup : ((putQuery ⟨q, now, res, fw⟩ st).map (·.query)).Nodup :=
    queryKeys_nodup hsort1
  set st1 := putQuery ⟨q, now, res, fw⟩ st with hst1
  set A := queriesByTimestamp st1 with hAdef
  have hperm : A.Perm st1 := sortAsc_perm _ _
  have hApw : A.Pairwise (fun a b => tsLe a b = true) :=
    sortAsc_pairwise tsLe tsLe_total tsLe_trans st1
  have hkeys : (A.map (·.query)).Nodup :=
    ((hperm.map (·.query)).nodup_iff).mpr hnodup
  unfold cacheUserQuery
  simp only []
  rw [← hst1, ← hAdef]
  by_cases hlen : A.length > 1000
  · rw [if_pos hlen]
    set old := A.take (A.length - 1000) with holddef
    set keep := A.drop (A.length - 1000) with hkeepdef
    have hsplit : old ++ keep = A := List.take_append_drop _ _
    have hdisj : ∀ a ∈ keep, a.query ∉ old.map (·.query) := by
      intro a haK hmem
      rw [← hsplit] at hkeys
      rw [List.map_append] at hkeys
      exact (List.disjoint_of_nodup_append hkeys) hmem
        (List.mem_map_of_mem _ haK)
    have h2 : old.filter
        (fun r => !((old.map (·.query)).contains r.query)) = [] := by
      refine List.filter_eq_nil_iff.mpr ?_
      intro a haO hcon
      simp at hcon
      exact hcon a haO rfl
    have h3 : keep.filter
        (fun r => !((old.map (·.query)).contains r.query)) = keep := by
      refine List.filter_eq_self.mpr ?_
      intro a haK
      cases hc : (old.map (·.query)).contains a.query
      · rfl
      · exact absurd (keysContains_iff.mp hc) (hdisj a haK)
    have hfilt : (st1.filter
        (fun r => !((old.map (·.query)).contains r.query))).Perm keep := by
      have hp1 : (st1.filter
          (fun r => !((old.map (·.query)).contains r.query))).Perm
          ((old ++ keep).filter
            (fun r => !((old.map (·.query)).contains r.query))) :=
        List.Perm.filter _ (hperm.symm.trans (by rw [hsplit]))
      have hp2 : (old ++ keep).filter
          (fun r => !((old.map (·.query)).contains r.query)) = keep := by
        rw [List.filter_append, h2, h3, List.nil_append]
      exact hp2 ▸ hp1
    refine ⟨?_, hfilt, ?_⟩
    · rw [hfilt.length_eq, hkeepdef, List.length_drop]
      omega
    · intro a ha hnot b hb
      have haA : a ∈ A := hperm.symm.subset ha
      have hbK : b ∈ keep := hfilt.subset hb
      rcases (by rw [← hsplit] at haA; exact List.mem_append.mp haA :
          a ∈ old ∨ a ∈ keep) with haO | haK
      · have hApw2 : (old ++ keep).Pairwise (fun a b => tsLe a b = true) := by
          rw [hsplit]
          exact hApw
        exact tsLeP_of_tsLe
          ((List.pairwise_append.mp hApw2).2.2 a haO b hbK)
      · exact absurd (hfilt.symm.subset haK) hnot
  · rw [if_neg hlen]
    refine ⟨?_, ?_, ?_⟩
    · rw [← hperm.length_eq]
      omega
    · have hz : A.length - 1000 = 0 := by omega
      rw [hz, List.drop_zero]
      exact hperm.symm
    · intro a ha hnot _ _
      exact absurd ha hnot

/-- C9: after any `cacheUserQuery` write — performed on a store reached
from the empty store by any earlier sequence of `cacheUserQuery` calls —
the `userQueries` collection holds at most 1000 records, and the
retained records are, up to order, exactly the suffix of the
`by-timestamp` index past position `length - 1000`: the newest
`min(length, 1000)` records (index order: ascending timestamp, primary
key tie break).  So nothing beyond the oldest `length - 1000` records is
purged, and in addition every purged record is no newer in the index
order than every retained one. -/
theorem c9_query_record_bound {R : Type}
    (pre : List (Nat × String × R × String)) (now : Nat) (q : String)
    (res : R) (fw : String) :
    (cacheUserQuery now q res fw (runUserQueries pre [])).length ≤ 1000 ∧
    (cacheUserQuery now q res fw (runUserQueries pre [])).Perm
      ((queriesByTimestamp
          (putQuery ⟨q, now, res, fw⟩ (runUserQueries pre []))).drop
        ((queriesByTimestamp
          (putQuery ⟨q, now, res, fw⟩ (runUserQueries pre []))).length -
          1000)) ∧
    ∀ a ∈ putQuery ⟨q, now, res, fw⟩ (runUserQueries pre []),
      a ∉ cacheUserQuery now q res fw (runUserQueries pre []) →
      ∀ b ∈ cacheUserQuery now q res fw (runUserQueries pre []), tsLeP a b :=
  cacheUserQuery_spec now q res fw (runUserQueries pre [])
    (runUserQueries_pairwise pre [] List.Pairwise.nil)

/-- C7: on the line `const API_KEY = "sk-…"` (the value being `sk-`
followed by 46 `a`s, 49 characters in all), `sanitizeCode` matches the
`api[_-]?key` assignment pattern, captures the quoted value, and
replaces exactly that first occurrence of the captured value inside the
match by 49 asterisks: the key name, the equals sign and both quotes
survive, and the line is not deleted or turned into a redaction
marker. -/
theorem c7_sanitize_preserves_key_name :
    sanitizeCode "const API_KEY = \"sk-aaaaaaaaaaaaaaaaaaaaaaaaaaaaaaaaaaaaaaaaaaaaaa\"" =
      "const API_KEY = \"*************************************************\"" := by
  decide
